import Mathlib

/-!
Verification of the backup-file remover script (`backup_file_remover.py`).

The script scans writable volumes for AutoCAD/SketchUp backup files
(`.bak` paired with `.dwg`, `.skb` paired with `.skp`), prunes an
exclusion set during the `os.walk` traversal via a `startswith` test on
normalized absolute path strings, asks one confirmation, and moves the
candidates to the recycle bin with `send2trash`, counting successes and
failures.

The embedding below models the filesystem as a finite tree of
directories, and the run of `delete_backup_files` as the list of
observable events it produces (directory enumerations, walk errors,
file examinations, existence checks, candidate discoveries, prompt
outcomes, trash moves and the final summary).  Directories are
identified by their component paths (root mount point followed by the
chain of sub-directory names); the string rendering used by the
script's `startswith` exclusion test is computed exactly as the script
does, by joining with the separator.
-/

namespace BackupRemover

/-- Boolean test that the first list is an initial segment of the second
(the model of Python's `str.startswith`, applied to the underlying
character lists, and also used on component paths). -/
def isPre {α : Type} [DecidableEq α] : List α → List α → Bool
  | [], _ => true
  | _ :: _, [] => false
  | a :: as, b :: bs => if a = b then isPre as bs else false

theorem isPre_iff_append {α : Type} [DecidableEq α] :
    ∀ l m : List α, isPre l m = true ↔ ∃ r, m = l ++ r := by
  intro l
  induction l with
  | nil =>
    intro m
    constructor
    · intro _; exact ⟨m, rfl⟩
    · intro _; rfl
  | cons a as ih =>
    intro m
    cases m with
    | nil =>
      constructor
      · intro h; simp [isPre] at h
      · rintro ⟨r, hr⟩; simp at hr
    | cons b bs =>
      constructor
      · intro h
        simp only [isPre] at h
        split at h
        · next hab =>
            subst hab
            obtain ⟨r, hr⟩ := (ih bs).1 h
            exact ⟨r, by rw [hr]; rfl⟩
        · simp at h
      · rintro ⟨r, hr⟩
        simp only [List.cons_append] at hr
        injection hr with h1 h2
        subst h1
        simp only [isPre, if_pos rfl]
        exact (ih bs).2 ⟨r, h2⟩

theorem isPre_refl {α : Type} [DecidableEq α] : ∀ l : List α, isPre l l = true := by
  intro l
  induction l with
  | nil => rfl
  | cons a as ih => simp [isPre, ih]

theorem isPre_append {α : Type} [DecidableEq α] (l r : List α) :
    isPre l (l ++ r) = true := by
  induction l with
  | nil => rfl
  | cons a as ih => simp [isPre, ih]

theorem isPre_trans {α : Type} [DecidableEq α] {a b c : List α}
    (h1 : isPre a b = true) (h2 : isPre b c = true) : isPre a c = true := by
  rw [isPre_iff_append] at h1 h2 ⊢
  obtain ⟨r1, hr1⟩ := h1
  obtain ⟨r2, hr2⟩ := h2
  exact ⟨r1 ++ r2, by simp [hr2, hr1]⟩

theorem isPre_length {α : Type} [DecidableEq α] {a b : List α}
    (h : isPre a b = true) : a.length ≤ b.length := by
  rw [isPre_iff_append] at h
  obtain ⟨r, hr⟩ := h
  simp [hr]

theorem isPre_antisymm {α : Type} [DecidableEq α] :
    ∀ a b : List α, isPre a b = true → isPre b a = true → a = b := by
  intro a
  induction a with
  | nil =>
    intro b _ h2
    cases b with
    | nil => rfl
    | cons y ys => simp [isPre] at h2
  | cons x xs ih =>
    intro b h1 h2
    cases b with
    | nil => simp [isPre] at h1
    | cons y ys =>
      simp only [isPre] at h1 h2
      split at h1
      · next hxy =>
          split at h2
          · rw [hxy, ih ys h1 h2]
          · simp at h2
      · simp at h1

theorem isPre_total {α : Type} [DecidableEq α] :
    ∀ a b c : List α, isPre a c = true → isPre b c = true →
      isPre a b = true ∨ isPre b a = true := by
  intro a
  induction a with
  | nil => intro b c _ _; left; rfl
  | cons x xs ih =>
    intro b c h1 h2
    cases b with
    | nil => right; rfl
    | cons y ys =>
      cases c with
      | nil => simp [isPre] at h1
      | cons z zs =>
        simp only [isPre] at h1 h2
        split at h1
        · next hxz =>
            split at h2
            · next hyz =>
                subst hxz; subst hyz
                simp only [isPre, if_pos rfl]
                exact ih ys zs h1 h2
            · simp at h2
        · simp at h1

theorem isPre_of_append_le {α : Type} [DecidableEq α] :
    ∀ a b c : List α, isPre a (b ++ c) = true → a.length ≤ b.length →
      isPre a b = true := by
  intro a
  induction a with
  | nil => intro b c _ _; rfl
  | cons x xs ih =>
    intro b c h hlen
    cases b with
    | nil => simp at hlen
    | cons y ys =>
      simp only [List.cons_append, isPre] at h ⊢
      split at h
      · next hxy =>
          rw [if_pos hxy]
          refine ih ys c h ?_
          simp only [List.length_cons] at hlen
          omega
      · simp at h

theorem isPre_cancel {α : Type} [DecidableEq α] (x : List α) (a b : List α) :
    isPre (x ++ a) (x ++ b) = isPre a b := by
  induction x with
  | nil => simp
  | cons c cs ih => simp [isPre, ih]

theorem strData_append (a b : String) : (a ++ b).data = a.data ++ b.data := by
  cases a; cases b; rfl

theorem strExt : ∀ {a b : String}, a.data = b.data → a = b := by
  intro a b h
  cases a; cases b
  exact congrArg String.mk h

theorem strAppend_assoc (a b c : String) : a ++ b ++ c = a ++ (b ++ c) := by
  apply strExt
  simp [strData_append]

/-- Model of Python's `str.startswith`: `s` starts with `pre`.  The
script tests `current_normalized_dirpath.startswith(excluded_path)`. -/
def pyStartswith (s pre : String) : Bool := isPre pre.data s.data

/-- The script's exclusion test: some member of the exclusion list is a
string-initial segment of the directory path. -/
def startswithAny (excl : List String) (d : String) : Bool :=
  excl.any fun e => pyStartswith d e

/-- Spec-side notion: `d` is strictly nested beneath directory `e`
(there is at least one further path component, i.e. `d = e ++ "/" ++ r`). -/
def strictlyUnderB (e d : String) : Bool := isPre (e ++ "/").data d.data

/-- Spec-side notion: `d` equals `e` or is nested beneath it. -/
def underB (e d : String) : Bool := (d == e) || strictlyUnderB e d

/-- `d` is equal to or nested beneath some member of the exclusion list. -/
def underAnyB (excl : List String) (d : String) : Bool :=
  excl.any fun e => underB e d

theorem startswith_of_under {e d : String} (h : underB e d = true) :
    pyStartswith d e = true := by
  unfold underB at h
  rcases Bool.or_eq_true_iff.1 h with h1 | h1
  · have : d = e := by simpa using h1
    subst this
    exact isPre_refl _
  · unfold strictlyUnderB at h1
    unfold pyStartswith
    refine isPre_trans ?_ h1
    rw [strData_append]
    exact isPre_append _ _

theorem strictlyUnder_extend {e d : String} (c : String) (h : underB e d = true) :
    strictlyUnderB e (d ++ "/" ++ c) = true := by
  unfold underB at h
  unfold strictlyUnderB
  rcases Bool.or_eq_true_iff.1 h with h1 | h1
  · have : d = e := by simpa using h1
    subst this
    rw [strData_append]
    exact isPre_append _ _
  · unfold strictlyUnderB at h1
    rw [isPre_iff_append] at h1
    obtain ⟨r, hr⟩ := h1
    rw [isPre_iff_append]
    refine ⟨r ++ "/".data ++ c.data, ?_⟩
    rw [strData_append, strData_append, hr]
    simp

/-- Key pruning fact: if the walk stands at a directory `d` that does
not start with `e`, then a child `d ++ "/" ++ c` (with a separator-free
child name `c`) cannot be strictly nested beneath `e`. -/
theorem child_not_strictlyUnder {d e c : String}
    (hd : pyStartswith d e = false) (hc : ('/' : Char) ∉ c.data) :
    strictlyUnderB e (d ++ "/" ++ c) = false := by
  have hslash : "/".data = ['/'] := rfl
  by_contra hcon
  have h : strictlyUnderB e (d ++ "/" ++ c) = true := by
    cases hx : strictlyUnderB e (d ++ "/" ++ c)
    · exact absurd hx hcon
    · rfl
  unfold strictlyUnderB at h
  rw [strData_append, strData_append, strData_append, hslash] at h
  have h2 : isPre (d.data ++ ['/']) (d.data ++ ['/'] ++ c.data) = true :=
    isPre_append (d.data ++ ['/']) c.data
  rcases isPre_total _ _ _ h h2 with hA | hB
  · -- e ++ "/" is an initial segment of d ++ "/", so e is one of d
    have he : isPre e.data (d.data ++ ['/']) = true :=
      isPre_trans (isPre_append e.data ['/']) hA
    have hlenA := isPre_length hA
    rw [List.length_append, List.length_append] at hlenA
    have hlen : e.data.length ≤ d.data.length := by
      simp only [List.length_singleton] at hlenA
      omega
    have hpre : isPre e.data d.data = true := isPre_of_append_le _ _ _ he hlen
    unfold pyStartswith at hd
    rw [hpre] at hd
    simp at hd
  · rcases Nat.lt_or_ge d.data.length e.data.length with hlt | hge
    · -- d ++ "/" is an initial segment of e, so c would contain "/"
      have hde : isPre (d.data ++ ['/']) e.data = true := by
        refine isPre_of_append_le _ _ _ hB ?_
        rw [List.length_append]
        simp only [List.length_singleton]
        omega
      rw [isPre_iff_append] at hde
      obtain ⟨r, hr⟩ := hde
      rw [hr] at h
      have h3 : isPre (r ++ ['/']) c.data = true := by
        rw [List.append_assoc (d.data ++ ['/']) r ['/']] at h
        rwa [isPre_cancel] at h
      rw [isPre_iff_append] at h3
      obtain ⟨r2, hr2⟩ := h3
      apply hc
      rw [hr2]
      simp
    · -- equal lengths: e = d, contradicting the startswith failure
      have hlenB := isPre_length hB
      rw [List.length_append, List.length_append] at hlenB
      simp only [List.length_singleton] at hlenB
      rw [isPre_iff_append] at hB
      obtain ⟨r, hr⟩ := hB
      have hlr := congrArg List.length hr
      rw [List.length_append, List.length_append, List.length_append] at hlr
      simp only [List.length_singleton] at hlr
      have hrnil : r = [] := List.eq_nil_of_length_eq_zero (by omega)
      rw [hrnil, List.append_nil] at hr
      have hed : e.data = d.data := List.append_cancel_right hr
      unfold pyStartswith at hd
      rw [hed, isPre_refl] at hd
      simp at hd

/-- Render a component path (mount point followed by sub-directory
names) to the string the script manipulates: components joined by the
path separator.  This is the normalized absolute path of the directory. -/
def pathStr : List String → String
  | [] => ""
  | x :: xs => xs.foldl (fun acc s => acc ++ "/" ++ s) x

theorem pathStr_snoc (q : List String) (c : String) (h : q ≠ []) :
    pathStr (q ++ [c]) = pathStr q ++ "/" ++ c := by
  cases q with
  | nil => exact absurd rfl h
  | cons x xs => simp [pathStr, List.foldl_append]

/-- Model of Python's `str.endswith`. -/
def pyEndswith (s suf : String) : Bool := isPre suf.data.reverse s.data.reverse

/-- The suffix filter of the script: `filename.endswith((".bak", ".skb"))`. -/
def bakSkbSuffix (f : String) : Bool := pyEndswith f ".bak" || pyEndswith f ".skb"

/-- Helper for `os.path.splitext`: split a character list at its LAST
dot, returning the part before and after the dot, or `none` when there
is no dot. -/
def sExtAux : List Char → Option (List Char × List Char)
  | [] => none
  | c :: cs =>
    match sExtAux cs with
    | some (b, e) => some (c :: b, e)
    | none => if c = '.' then some ([], cs) else none

/-- Model of `os.path.splitext` on a base name (no separators): split
at the last dot provided some character strictly before that dot is not
itself a dot; otherwise the extension is empty.  This reproduces
CPython's behaviour on names such as `".bak"` or `"..bak"`, whose
extension is empty. -/
def pySplitext (f : String) : String × String :=
  match sExtAux f.data with
  | some (b, e) =>
    if b.any (fun ch => ch != '.') then (String.mk b, String.mk ('.' :: e))
    else (f, "")
  | none => (f, "")

theorem sExtAux_some : ∀ (l : List Char) (b e : List Char),
    sExtAux l = some (b, e) → l = b ++ '.' :: e := by
  intro l
  induction l with
  | nil => intro b e h; simp [sExtAux] at h
  | cons c cs ih =>
    intro b e h
    cases hcs : sExtAux cs with
    | some be =>
      obtain ⟨b', e'⟩ := be
      simp only [sExtAux, hcs] at h
      obtain ⟨rfl, rfl⟩ := h
      simp [ih _ _ hcs]
    | none =>
      simp only [sExtAux, hcs] at h
      split at h
      · next hdot =>
          simp only [Option.some.injEq, Prod.mk.injEq] at h
          obtain ⟨hb, he⟩ := h
          rw [← hb, ← he, hdot]
          rfl
      · simp at h

theorem splitext_decomp (f : String) :
    (pySplitext f).2 = "" ∨
      f.data = (pySplitext f).1.data ++ (pySplitext f).2.data := by
  cases h : sExtAux f.data with
  | none => left; simp [pySplitext, h]
  | some be =>
    obtain ⟨b, e⟩ := be
    by_cases hany : b.any (fun ch => ch != '.') = true
    · right
      have hd := sExtAux_some _ _ _ h
      simp [pySplitext, h, hany]
      exact hd
    · left
      simp [pySplitext, h, hany]

theorem endswith_of_ext {f ext : String} (hne : ext ≠ "")
    (h : (pySplitext f).2 = ext) : pyEndswith f ext = true := by
  rcases splitext_decomp f with h0 | hd
  · rw [h] at h0; exact absurd h0 hne
  · rw [h] at hd
    unfold pyEndswith
    rw [isPre_iff_append]
    exact ⟨(pySplitext f).1.data.reverse, by rw [hd]; simp⟩

/-- Model of Python's `str.strip()` (whitespace from both ends). -/
def pyStrip (s : String) : String :=
  String.mk (((s.data.dropWhile Char.isWhitespace).reverse.dropWhile
    Char.isWhitespace).reverse)

/-- Model of Python's `str.lower()`. -/
def pyLower (s : String) : String := String.mk (s.data.map Char.toLower)

/-- Snapshot of a directory of the filesystem: its name, whether
listing it succeeds (`os.walk`'s `scandir` does not raise), its
sub-directories and its plain files. -/
inductive FSTree : Type where
  | mk : String → Bool → List FSTree → List String → FSTree

def FSTree.name : FSTree → String
  | .mk n _ _ _ => n

def FSTree.readable : FSTree → Bool
  | .mk _ r _ _ => r

def FSTree.subdirs : FSTree → List FSTree
  | .mk _ _ s _ => s

def FSTree.files : FSTree → List String
  | .mk _ _ _ fs => fs

/-- Boolean check that a list of strings has no duplicates. -/
def nodupB : List String → Bool
  | [] => true
  | x :: xs => !(xs.contains x) && nodupB xs

mutual
/-- Well-formedness of a directory snapshot, as guaranteed by a real
filesystem: sibling directory names are distinct and contain no path
separator. -/
def wfTree : FSTree → Bool
  | FSTree.mk _ _ subs _ => nodupB (subs.map FSTree.name) && wfList subs

/-- Well-formedness of a list of sibling directory snapshots. -/
def wfList : List FSTree → Bool
  | [] => true
  | c :: cs => (!(c.name.data.contains '/')) && wfTree c && wfList cs
end

/-- Observable events of a run of `delete_backup_files`.  Directory
arguments are component paths: the mount point followed by the chain of
sub-directory names leading to the directory. -/
inductive Ev : Type where
  | visit : List String → List String → List String → Ev
  | walkError : List String → Ev
  | pruned : List String → Ev
  | examine : List String → String → Ev
  | checkOrig : List String → String → Bool → Ev
  | candidate : List String → String → Ev
  | unknownExt : List String → String → Ev
  | enumFailed : Ev
  | noDrives : Ev
  | noCandidates : Ev
  | listShown : List String → Ev
  | cancelled : Ev
  | promptInterrupted : Ev
  | promptEof : Ev
  | autoMode : Ev
  | trash : String → Bool → Ev
  | summary : Nat → Nat → Ev
deriving DecidableEq

/-- Events produced by the body of the `for filename in filenames`
loop for one file: mark the file examined; if it carries one of the two
backup suffixes, split off the extension, map it to the original
extension, check existence of the original in the same directory and,
when present, record the file as a deletion candidate.  A suffix match
whose split extension is neither `.bak` nor `.skb` (as for a file named
exactly `.bak`) only logs a warning. -/
def fileEvs (entries : List String) (q : List String) (f : String) : List Ev :=
  Ev.examine q f ::
    (if bakSkbSuffix f then
      if (pySplitext f).2 = ".bak" then
        Ev.checkOrig q ((pySplitext f).1 ++ ".dwg")
            (entries.contains ((pySplitext f).1 ++ ".dwg")) ::
          (if entries.contains ((pySplitext f).1 ++ ".dwg")
            then [Ev.candidate q f] else [])
      else if (pySplitext f).2 = ".skb" then
        Ev.checkOrig q ((pySplitext f).1 ++ ".skp")
            (entries.contains ((pySplitext f).1 ++ ".skp")) ::
          (if entries.contains ((pySplitext f).1 ++ ".skp")
            then [Ev.candidate q f] else [])
      else [Ev.unknownExt q f]
    else [])

mutual
/-- Events of the `os.walk(root, topdown=True, onerror=...)` loop of
the script, starting at component path `q`.  An unreadable directory
fires `onerror` and contributes nothing else.  A readable directory is
yielded (visited); if its normalized path string starts with an
excluded path, the script clears `dirnames` and continues, so neither
its files nor its subtrees are processed; otherwise every file is
examined and every sub-directory is walked in order. -/
def walkEvs (excl : List String) : List String → FSTree → List Ev
  | q, FSTree.mk _ readable subs files =>
    if readable then
      Ev.visit q (subs.map FSTree.name) files ::
        (if startswithAny excl (pathStr q) then [Ev.pruned q]
        else
          (files.map (fileEvs (files ++ subs.map FSTree.name) q)).flatten ++
            walkSubdirs excl q subs)
    else [Ev.walkError q]

/-- The walk of the sub-directories of a visited directory, in listing
order. -/
def walkSubdirs (excl : List String) : List String → List FSTree → List Ev
  | _, [] => []
  | q, c :: cs => walkEvs excl (q ++ [c.name]) c ++ walkSubdirs excl q cs
end

/-- Induction principle for the nested tree type: to prove a property
of every tree it suffices to prove it for a node assuming it for all
sub-directories. -/
theorem FSTree.inductionOn (t : FSTree) {P : FSTree → Prop}
    (h : ∀ n r subs files, (∀ c ∈ subs, P c) → P (FSTree.mk n r subs files)) :
    P t :=
  match t with
  | FSTree.mk n r subs files =>
    h n r subs files fun c hc => FSTree.inductionOn c h
decreasing_by
  have := List.sizeOf_lt_of_mem hc
  simp only [FSTree.mk.sizeOf_spec]
  omega

/-- One mounted partition as reported by `psutil.disk_partitions()`:
its mount point, whether its options contain `rw`, whether the mount
point is a directory, and a snapshot of its contents. -/
structure Volume : Type where
  mountpoint : String
  optsRw : Bool
  mountIsDir : Bool
  tree : FSTree

/-- The environment the script queries: the user's `AppData` path, the
OS-family discriminator `os.name == 'nt'`, the three Windows
environment variables, the `os.path.isdir` predicate of the host
filesystem and the `os.path.normpath(os.path.abspath(.))`
canonicalization. -/
structure Env : Type where
  appData : String
  isWindowsNT : Bool
  programFiles : Option String
  programFilesX86 : Option String
  windir : Option String
  isdir : String → Bool
  normAbs : String → String

/-- The outcome of the single `input()` call: a line of text, a
`KeyboardInterrupt`, or an `EOFError`. -/
inductive PromptResult : Type where
  | answer : String → PromptResult
  | interrupted : PromptResult
  | eof : PromptResult
deriving DecidableEq

/-- The scan roots: partitions whose options contain `rw` and whose
mount point is a directory. -/
def searchVols (parts : List Volume) : List Volume :=
  parts.filter fun v => v.optsRw && v.mountIsDir

/-- `if value and os.path.isdir(value)` applied to an optional
environment variable. -/
def envDirOpt (env : Env) : Option String → List String
  | some p => if p ≠ "" ∧ env.isdir p = true then [p] else []
  | none => []

/-- The raw exclusion definitions: the user's `AppData` directory
always; on Windows additionally `ProgramFiles`, `ProgramFiles(x86)`
and `WINDIR` when set and directories, and the `$Recycle.Bin` found at
the root of every scan root. -/
def excludeDefsList (env : Env) (roots : List String) : List String :=
  [env.appData] ++
    (if env.isWindowsNT then
      envDirOpt env env.programFiles ++
        envDirOpt env env.programFilesX86 ++
        envDirOpt env env.windir ++
        roots.filterMap (fun r =>
          if env.isdir (r ++ "/" ++ "$Recycle.Bin") = true
            then some (r ++ "/" ++ "$Recycle.Bin") else none)
    else [])

/-- The final exclusion list: keep each truthy definition that is a
directory, normalized to absolute canonical form. -/
def buildExcludeDirs (env : Env) (defs : List String) : List String :=
  defs.filterMap fun p =>
    if p ≠ "" ∧ env.isdir p = true then some (env.normAbs p) else none

/-- The exclusion list a run with the given scan roots uses. -/
def scanExcl (env : Env) (svols : List Volume) : List String :=
  buildExcludeDirs env (excludeDefsList env (svols.map Volume.mountpoint))

/-- All events of the scan phase: each scan root is walked in order
with the one exclusion list built beforehand. -/
def scanPhaseEvs (env : Env) (svols : List Volume) : List Ev :=
  (svols.map fun v => walkEvs (scanExcl env svols) [v.mountpoint] v.tree).flatten

/-- The candidate list accumulated during the scan: the joined path of
every recorded candidate event, in discovery order. -/
def candidatesOf (evs : List Ev) : List String :=
  evs.filterMap fun ev =>
    match ev with
    | Ev.candidate q f => some (pathStr q ++ "/" ++ f)
    | _ => none

/-- The deletion batch: one `send2trash` attempt per candidate in list
order, each independently succeeding or failing, followed by the
summary of counts. -/
def batchEvs (trashOk : String → Bool) (cands : List String) : List Ev :=
  (cands.map fun p => Ev.trash p (trashOk p)) ++
    [Ev.summary (cands.filter fun p => trashOk p).length
      (cands.filter fun p => !trashOk p).length]

/-- The full run of `delete_backup_files(confirm)`: volume enumeration
(`none` models a raised exception), search-root filtering, exclusion
building, the scan of every root, then the no-candidate early return,
or the candidate listing followed by the confirmation gate and, when
deletion proceeds, the trash-move batch with its summary. -/
def runEvents (env : Env) (partsResult : Option (List Volume)) (confirm : Bool)
    (pr : PromptResult) (trashOk : String → Bool) : List Ev :=
  match partsResult with
  | none => [Ev.enumFailed]
  | some parts =>
    let svols := searchVols parts
    if svols.isEmpty then [Ev.noDrives]
    else
      let scanEvs := scanPhaseEvs env svols
      let cands := candidatesOf scanEvs
      if cands = [] then scanEvs ++ [Ev.noCandidates]
      else
        scanEvs ++ Ev.listShown cands ::
          (if confirm then
            match pr with
            | PromptResult.answer s =>
              if pyLower (pyStrip s) = "y" then batchEvs trashOk cands
              else [Ev.cancelled]
            | PromptResult.interrupted => [Ev.promptInterrupted]
            | PromptResult.eof => [Ev.promptEof]
          else Ev.autoMode :: batchEvs trashOk cands)

/-- Recognizer for `send2trash` invocation events. -/
def isTrashEv : Ev → Bool
  | Ev.trash _ _ => true
  | _ => false

/-- Recognizer for the final summary report event. -/
def isSummaryEv : Ev → Bool
  | Ev.summary _ _ => true
  | _ => false

/-- The trash-move events of a trace. -/
def trashEvsOf (evs : List Ev) : List Ev := evs.filter isTrashEv

/-- Number of `send2trash` invocations in a trace. -/
def trashCount (evs : List Ev) : Nat := (trashEvsOf evs).length

/-- Whether a final success/failure summary appears in a trace. -/
def hasSummaryB (evs : List Ev) : Bool := evs.any isSummaryEv

/-- Semantics of one event on the filesystem state (the set of
existing paths): only a successful trash move changes the state, by
removing the moved file; every other event is an observation. -/
def evEffect (s : String → Bool) (ev : Ev) : String → Bool :=
  match ev with
  | Ev.trash p true => fun x => if x = p then false else s x
  | _ => s

/-- Replay a trace of events on a filesystem state. -/
def applyEvs (s : String → Bool) (evs : List Ev) : String → Bool :=
  evs.foldl evEffect s

/-- The directory an event belongs to; `none` for post-scan events. -/
def evPath : Ev → Option (List String)
  | Ev.visit q _ _ => some q
  | Ev.walkError q => some q
  | Ev.pruned q => some q
  | Ev.examine q _ => some q
  | Ev.checkOrig q _ _ => some q
  | Ev.candidate q _ => some q
  | Ev.unknownExt q _ => some q
  | _ => none

theorem wfList_mem : ∀ (l : List FSTree), wfList l = true →
    ∀ c ∈ l, ('/' : Char) ∉ c.name.data ∧ wfTree c = true := by
  intro l
  induction l with
  | nil => intro _ c hc; simp at hc
  | cons x xs ih =>
    intro h c hc
    rw [wfList, Bool.and_eq_true, Bool.and_eq_true] at h
    obtain ⟨⟨hx1, hx2⟩, hxs⟩ := h
    rcases List.mem_cons.1 hc with rfl | hc
    · refine ⟨?_, hx2⟩
      intro hmem
      have h3 := List.elem_iff.2 hmem
      rw [Bool.not_eq_true'] at hx1
      have hx1b : List.elem '/' c.name.data = false := hx1
      rw [hx1b] at h3
      simp at h3
    · exact ih hxs c hc

theorem wfTree_node {n : String} {r : Bool} {subs : List FSTree}
    {files : List String} (h : wfTree (FSTree.mk n r subs files) = true) :
    nodupB (subs.map FSTree.name) = true ∧
      ∀ c ∈ subs, ('/' : Char) ∉ c.name.data ∧ wfTree c = true := by
  rw [wfTree, Bool.and_eq_true] at h
  exact ⟨h.1, wfList_mem subs h.2⟩

theorem nodupB_name_inj : ∀ (l : List FSTree), nodupB (l.map FSTree.name) = true →
    ∀ c1 ∈ l, ∀ c2 ∈ l, c1.name = c2.name → c1 = c2 := by
  intro l
  induction l with
  | nil => intro _ c1 h1; simp at h1
  | cons x xs ih =>
    intro h c1 h1 c2 h2 hname
    rw [List.map_cons, nodupB, Bool.and_eq_true] at h
    obtain ⟨hx, hxs⟩ := h
    rw [Bool.not_eq_true'] at hx
    have hx' : x.name ∉ xs.map FSTree.name := by
      intro hmem
      have h3 := List.elem_iff.2 hmem
      have hx2 : List.elem x.name (xs.map FSTree.name) = false := hx
      rw [hx2] at h3
      simp at h3
    rcases List.mem_cons.1 h1 with h1e | h1m
    · rcases List.mem_cons.1 h2 with h2e | h2m
      · rw [h1e, h2e]
      · exfalso
        apply hx'
        have hxc : x.name = c2.name := by rw [← h1e, hname]
        rw [hxc]
        exact List.mem_map_of_mem FSTree.name h2m
    · rcases List.mem_cons.1 h2 with h2e | h2m
      · exfalso
        apply hx'
        have hxc : x.name = c1.name := by rw [← h2e, ← hname]
        rw [hxc]
        exact List.mem_map_of_mem FSTree.name h1m
      · exact ih hxs c1 h1m c2 h2m hname

theorem walkSubdirs_mem {excl : List String} {q : List String} {ev : Ev} :
    ∀ {subs : List FSTree}, ev ∈ walkSubdirs excl q subs ↔
      ∃ c ∈ subs, ev ∈ walkEvs excl (q ++ [c.name]) c := by
  intro subs
  induction subs with
  | nil => simp [walkSubdirs]
  | cons x xs ih => simp [walkSubdirs, ih]

/-- Characterization of membership in the walk trace of one node. -/
theorem walk_mem_cases {excl : List String} {q : List String} {n : String}
    {r : Bool} {subs : List FSTree} {files : List String} {ev : Ev} :
    ev ∈ walkEvs excl q (FSTree.mk n r subs files) ↔
      (r = false ∧ ev = Ev.walkError q) ∨
      (r = true ∧ ev = Ev.visit q (subs.map FSTree.name) files) ∨
      (r = true ∧ startswithAny excl (pathStr q) = true ∧ ev = Ev.pruned q) ∨
      (r = true ∧ startswithAny excl (pathStr q) = false ∧
        ∃ f ∈ files, ev ∈ fileEvs (files ++ subs.map FSTree.name) q f) ∨
      (r = true ∧ startswithAny excl (pathStr q) = false ∧
        ∃ c ∈ subs, ev ∈ walkEvs excl (q ++ [c.name]) c) := by
  cases r with
  | false => simp [walkEvs]
  | true =>
    by_cases hex : startswithAny excl (pathStr q) = true
    · simp [walkEvs, hex]
    · rw [Bool.not_eq_true] at hex
      simp [walkEvs, hex, List.mem_flatten, List.mem_map, walkSubdirs_mem]

/-- Events produced by the per-file loop body. -/
def isFileEv : Ev → Bool
  | Ev.examine _ _ => true
  | Ev.checkOrig _ _ _ => true
  | Ev.candidate _ _ => true
  | Ev.unknownExt _ _ => true
  | _ => false

/-- Directory enumeration events: a successful `scandir` (the walk
yield) or a failed one (the `onerror` callback). -/
def isDirEv : Ev → Bool
  | Ev.visit _ _ _ => true
  | Ev.walkError _ => true
  | _ => false

theorem fileEvs_kind_path (entries : List String) (q : List String) (f : String) :
    ∀ ev ∈ fileEvs entries q f, isFileEv ev = true ∧ evPath ev = some q := by
  intro ev hev
  unfold fileEvs at hev
  rcases List.mem_cons.1 hev with rfl | hev
  · exact ⟨rfl, rfl⟩
  · split at hev
    · split at hev
      · rcases List.mem_cons.1 hev with rfl | hev
        · exact ⟨rfl, rfl⟩
        · split at hev
          · rcases List.mem_singleton.1 hev with rfl
            exact ⟨rfl, rfl⟩
          · simp at hev
      · split at hev
        · rcases List.mem_cons.1 hev with rfl | hev
          · exact ⟨rfl, rfl⟩
          · split at hev
            · rcases List.mem_singleton.1 hev with rfl
              exact ⟨rfl, rfl⟩
            · simp at hev
        · rcases List.mem_singleton.1 hev with rfl
          exact ⟨rfl, rfl⟩
    · simp at hev

theorem fileEvs_candidate {entries : List String} {q : List String} {f : String}
    {q' : List String} {f' : String} :
    Ev.candidate q' f' ∈ fileEvs entries q f ↔
      q' = q ∧ f' = f ∧ bakSkbSuffix f = true ∧
        (((pySplitext f).2 = ".bak" ∧
            entries.contains ((pySplitext f).1 ++ ".dwg") = true) ∨
          ((pySplitext f).2 = ".skb" ∧
            entries.contains ((pySplitext f).1 ++ ".skp") = true)) := by
  by_cases hsuf : bakSkbSuffix f = true
  · by_cases hbak : (pySplitext f).2 = ".bak"
    · by_cases hcont : entries.contains ((pySplitext f).1 ++ ".dwg") = true
      · simp [fileEvs, hsuf, hbak, hcont]
        tauto
      · simp [fileEvs, hsuf, hbak, hcont]
        tauto
    · by_cases hskb : (pySplitext f).2 = ".skb"
      · by_cases hcont : entries.contains ((pySplitext f).1 ++ ".skp") = true
        · simp [fileEvs, hsuf, hbak, hskb, hcont]
          tauto
        · simp [fileEvs, hsuf, hbak, hskb, hcont]
          tauto
      · simp [fileEvs, hsuf, hbak, hskb]
  · simp [fileEvs, hsuf]

theorem startswithAny_false {excl : List String} {d : String}
    (h : startswithAny excl d = false) :
    ∀ e ∈ excl, pyStartswith d e = false := by
  intro e he
  cases hx : pyStartswith d e
  · rfl
  · exfalso
    have h2 : (excl.any fun e2 => pyStartswith d e2) = true :=
      List.any_eq_true.2 ⟨e, he, hx⟩
    rw [startswithAny] at h
    rw [h2] at h
    simp at h

theorem isPre_eq_of_length {α : Type} [DecidableEq α] {a b : List α}
    (h : isPre a b = true) (hl : b.length ≤ a.length) : a = b := by
  rw [isPre_iff_append] at h
  obtain ⟨r, hr⟩ := h
  have := congrArg List.length hr
  rw [List.length_append] at this
  have hrnil : r = [] := List.eq_nil_of_length_eq_zero (by omega)
  rw [hr, hrnil, List.append_nil]

/-- Every event of a walk rooted at `q` lives at a path extending `q`. -/
theorem walk_path {excl : List String} : ∀ (t : FSTree) (q : List String) (ev : Ev),
    ev ∈ walkEvs excl q t → ∃ p, evPath ev = some p ∧ isPre q p = true := by
  intro t
  induction t using FSTree.inductionOn with
  | h n r subs files ih =>
    intro q ev hev
    rcases walk_mem_cases.1 hev with ⟨hr, rfl⟩ | ⟨hr, rfl⟩ | ⟨hr, hex, rfl⟩ |
      ⟨hr, hex, f0, hf0, hev2⟩ | ⟨hr, hex, c, hc, hev2⟩
    · exact ⟨q, rfl, isPre_refl q⟩
    · exact ⟨q, rfl, isPre_refl q⟩
    · exact ⟨q, rfl, isPre_refl q⟩
    · exact ⟨q, (fileEvs_kind_path _ _ _ ev hev2).2, isPre_refl q⟩
    · obtain ⟨p, hp, hpre⟩ := ih c hc (q ++ [c.name]) ev hev2
      exact ⟨p, hp, isPre_trans (isPre_append q [c.name]) hpre⟩

/-- A file is examined only in directories that fail the exclusion
test (an excluded directory skips its whole file loop). -/
theorem walk_examine {excl : List String} : ∀ (t : FSTree) (q p : List String)
    (f : String), Ev.examine p f ∈ walkEvs excl q t →
    startswithAny excl (pathStr p) = false := by
  intro t
  induction t using FSTree.inductionOn with
  | h n r subs files ih =>
    intro q p f hev
    rcases walk_mem_cases.1 hev with ⟨hr, heq⟩ | ⟨hr, heq⟩ | ⟨hr, hex, heq⟩ |
      ⟨hr, hex, f0, hf0, hev2⟩ | ⟨hr, hex, c, hc, hev2⟩
    · simp at heq
    · simp at heq
    · simp at heq
    · have hp := (fileEvs_kind_path _ _ _ _ hev2).2
      have : p = q := by simpa [evPath] using hp
      rwa [this]
    · exact ih c hc _ p f hev2

/-- The prune marker appears only at directories that pass the
exclusion test. -/
theorem walk_pruned {excl : List String} : ∀ (t : FSTree) (q p : List String),
    Ev.pruned p ∈ walkEvs excl q t →
    startswithAny excl (pathStr p) = true := by
  intro t
  induction t using FSTree.inductionOn with
  | h n r subs files ih =>
    intro q p hev
    rcases walk_mem_cases.1 hev with ⟨hr, heq⟩ | ⟨hr, heq⟩ | ⟨hr, hex, heq⟩ |
      ⟨hr, hex, f0, hf0, hev2⟩ | ⟨hr, hex, c, hc, hev2⟩
    · simp at heq
    · simp at heq
    · have : p = q := by
        injection heq
      rwa [this]
    · have := (fileEvs_kind_path _ _ _ _ hev2).1
      simp [isFileEv] at this
    · exact ih c hc _ p hev2

/-- Conversely, a visited directory that passes the exclusion test is
pruned. -/
theorem walk_visit_pruned {excl : List String} : ∀ (t : FSTree)
    (q p : List String) (dn fl : List String),
    Ev.visit p dn fl ∈ walkEvs excl q t →
    startswithAny excl (pathStr p) = true →
    Ev.pruned p ∈ walkEvs excl q t := by
  intro t
  induction t using FSTree.inductionOn with
  | h n r subs files ih =>
    intro q p dn fl hev hex2
    rcases walk_mem_cases.1 hev with ⟨hr, heq⟩ | ⟨hr, heq⟩ | ⟨hr, hex, heq⟩ |
      ⟨hr, hex, f0, hf0, hev2⟩ | ⟨hr, hex, c, hc, hev2⟩
    · simp at heq
    · have hp : p = q := by injection heq
      subst hp
      exact walk_mem_cases.2 (Or.inr (Or.inr (Or.inl ⟨hr, hex2, rfl⟩)))
    · simp at heq
    · have := (fileEvs_kind_path _ _ _ _ hev2).1
      simp [isFileEv] at this
    · exact walk_mem_cases.2 (Or.inr (Or.inr (Or.inr (Or.inr
        ⟨hr, hex, c, hc, ih c hc _ p dn fl hev2 hex2⟩))))

theorem not_dir_of_file {ev : Ev} (h : isFileEv ev = true) : isDirEv ev = false := by
  cases ev <;> simp_all [isFileEv, isDirEv]

theorem snoc_eq_of_isPre {q : List String} {a b : String} {p : List String}
    (ha : isPre (q ++ [a]) p = true) (hb : isPre (q ++ [b]) p = true) : a = b := by
  have key : ∀ {x y : String}, isPre (q ++ [x]) (q ++ [y]) = true → x = y := by
    intro x y h
    have heq : q ++ [x] = q ++ [y] := isPre_eq_of_length h (by simp)
    have := List.append_cancel_left heq
    simpa using this
  rcases isPre_total _ _ _ ha hb with h | h
  · exact key h
  · exact (key h).symm

/-- No directory enumeration (successful or failed) of the walk, apart
from possibly its own starting root, happens at a path strictly nested
beneath an exclusion member: the walk is pruned at excluded
directories, before ever listing anything below them. -/
theorem walk_dir_safe {excl : List String} : ∀ (t : FSTree) (q : List String),
    wfTree t = true → q ≠ [] →
    ∀ ev p, ev ∈ walkEvs excl q t → isDirEv ev = true → evPath ev = some p →
      p = q ∨ ∀ e ∈ excl, strictlyUnderB e (pathStr p) = false := by
  intro t
  induction t using FSTree.inductionOn with
  | h n r subs files ih =>
    intro q hwf hq ev p hev hdir hp
    rcases walk_mem_cases.1 hev with ⟨hr, rfl⟩ | ⟨hr, rfl⟩ | ⟨hr, hex, rfl⟩ |
      ⟨hr, hex, f0, hf0, hev2⟩ | ⟨hr, hex, c, hc, hev2⟩
    · left
      simp only [evPath, Option.some.injEq] at hp
      exact hp.symm
    · left
      simp only [evPath, Option.some.injEq] at hp
      exact hp.symm
    · simp [isDirEv] at hdir
    · rw [not_dir_of_file (fileEvs_kind_path _ _ _ _ hev2).1] at hdir
      simp at hdir
    · obtain ⟨hnod, hsub⟩ := wfTree_node hwf
      obtain ⟨hslash, hwfc⟩ := hsub c hc
      rcases ih c hc (q ++ [c.name]) hwfc (by simp) ev p hev2 hdir hp with hcase | hcase
      · right
        intro e he
        rw [hcase, pathStr_snoc q c.name hq]
        exact child_not_strictlyUnder (startswithAny_false hex e he) hslash
      · right
        exact hcase

/-- In a well-formed tree the walk enumerates each directory path at
most once, so the visit event determines the directory listing. -/
theorem walk_visit_unique {excl : List String} : ∀ (t : FSTree) (q : List String),
    wfTree t = true →
    ∀ p dn fl dn2 fl2, Ev.visit p dn fl ∈ walkEvs excl q t →
      Ev.visit p dn2 fl2 ∈ walkEvs excl q t → dn = dn2 ∧ fl = fl2 := by
  intro t
  induction t using FSTree.inductionOn with
  | h n r subs files ih =>
    intro q hwf p dn fl dn2 fl2 h1 h2
    rcases walk_mem_cases.1 h1 with ⟨hr, heq1⟩ | ⟨hr, heq1⟩ | ⟨hr, hex, heq1⟩ |
      ⟨hr, hex, f0, hf0, hev1⟩ | ⟨hr, hex, c1, hc1, hev1⟩
    · simp at heq1
    · injection heq1 with hp1 hdn1 hfl1
      subst hp1
      rcases walk_mem_cases.1 h2 with ⟨hr2, heq2⟩ | ⟨hr2, heq2⟩ | ⟨_, _, heq2⟩ |
        ⟨_, _, f0, hf0, hev2⟩ | ⟨_, hex2, c2, hc2, hev2⟩
      · simp at heq2
      · injection heq2 with hp2 hdn2 hfl2
        exact ⟨by rw [hdn1, hdn2], by rw [hfl1, hfl2]⟩
      · simp at heq2
      · have hk := (fileEvs_kind_path _ _ _ _ hev2).1
        simp [isFileEv] at hk
      · obtain ⟨pp, hpp, hpre⟩ := walk_path c2 _ _ hev2
        simp only [evPath, Option.some.injEq] at hpp
        rw [← hpp] at hpre
        have hlen := isPre_length hpre
        rw [List.length_append] at hlen
        simp at hlen
    · simp at heq1
    · have hk := (fileEvs_kind_path _ _ _ _ hev1).1
      simp [isFileEv] at hk
    · rcases walk_mem_cases.1 h2 with ⟨hr2, heq2⟩ | ⟨hr2, heq2⟩ | ⟨_, _, heq2⟩ |
        ⟨_, _, f0, hf0, hev2⟩ | ⟨_, _, c2, hc2, hev2⟩
      · simp at heq2
      · injection heq2 with hp2 hdn2 hfl2
        obtain ⟨pp, hpp, hpre⟩ := walk_path c1 _ _ hev1
        simp only [evPath, Option.some.injEq] at hpp
        rw [← hpp, hp2] at hpre
        have hlen := isPre_length hpre
        rw [List.length_append] at hlen
        simp at hlen
      · simp at heq2
      · have hk := (fileEvs_kind_path _ _ _ _ hev2).1
        simp [isFileEv] at hk
      · obtain ⟨pp1, hpp1, hpre1⟩ := walk_path c1 (q ++ [c1.name]) _ hev1
        obtain ⟨pp2, hpp2, hpre2⟩ := walk_path c2 (q ++ [c2.name]) _ hev2
        simp only [evPath, Option.some.injEq] at hpp1 hpp2
        rw [← hpp1] at hpre1
        rw [← hpp2] at hpre2
        have hname : c1.name = c2.name := snoc_eq_of_isPre hpre1 hpre2
        have hceq : c1 = c2 :=
          nodupB_name_inj subs (wfTree_node hwf).1 c1 hc1 c2 hc2 hname
        subst hceq
        exact ih c1 hc1 _ ((wfTree_node hwf).2 c1 hc1).2
          p dn fl dn2 fl2 hev1 hev2

/-- Provenance of a candidate: it was recorded while examining the
files of a visited, non-excluded directory whose listing contains the
backup file and the derived original. -/
theorem walk_candidate_src {excl : List String} : ∀ (t : FSTree)
    (q p : List String) (f : String),
    Ev.candidate p f ∈ walkEvs excl q t →
    ∃ dn fl, Ev.visit p dn fl ∈ walkEvs excl q t ∧
      startswithAny excl (pathStr p) = false ∧ f ∈ fl ∧
      bakSkbSuffix f = true ∧
      (((pySplitext f).2 = ".bak" ∧
          (fl ++ dn).contains ((pySplitext f).1 ++ ".dwg") = true) ∨
        ((pySplitext f).2 = ".skb" ∧
          (fl ++ dn).contains ((pySplitext f).1 ++ ".skp") = true)) := by
  intro t
  induction t using FSTree.inductionOn with
  | h n r subs files ih =>
    intro q p f hev
    rcases walk_mem_cases.1 hev with ⟨hr, heq⟩ | ⟨hr, heq⟩ | ⟨hr, hex, heq⟩ |
      ⟨hr, hex, f0, hf0, hev2⟩ | ⟨hr, hex, c, hc, hev2⟩
    · simp at heq
    · simp at heq
    · simp at heq
    · obtain ⟨hpq, hff0, hsuf, hcond⟩ := fileEvs_candidate.1 hev2
      subst hpq
      subst hff0
      refine ⟨subs.map FSTree.name, files, ?_, hex, hf0, hsuf, hcond⟩
      exact walk_mem_cases.2 (Or.inr (Or.inl ⟨hr, rfl⟩))
    · obtain ⟨dn, fl, hvis, hx, hf, hsuf, hcond⟩ := ih c hc (q ++ [c.name]) p f hev2
      exact ⟨dn, fl,
        walk_mem_cases.2 (Or.inr (Or.inr (Or.inr (Or.inr ⟨hr, hex, c, hc, hvis⟩)))),
        hx, hf, hsuf, hcond⟩

/-- Completeness of candidate generation: a file listed in a visited,
non-excluded directory whose listing contains the mapped original is
recorded as a candidate. -/
theorem walk_candidate_complete {excl : List String} : ∀ (t : FSTree)
    (q p : List String) (dn fl : List String) (f : String),
    Ev.visit p dn fl ∈ walkEvs excl q t →
    startswithAny excl (pathStr p) = false →
    f ∈ fl →
    bakSkbSuffix f = true →
    (((pySplitext f).2 = ".bak" ∧
        (fl ++ dn).contains ((pySplitext f).1 ++ ".dwg") = true) ∨
      ((pySplitext f).2 = ".skb" ∧
        (fl ++ dn).contains ((pySplitext f).1 ++ ".skp") = true)) →
    Ev.candidate p f ∈ walkEvs excl q t := by
  intro t
  induction t using FSTree.inductionOn with
  | h n r subs files ih =>
    intro q p dn fl f hvis hx hf hsuf hcond
    rcases walk_mem_cases.1 hvis with ⟨hr, heq⟩ | ⟨hr, heq⟩ | ⟨hr, hex, heq⟩ |
      ⟨hr, hex, f0, hf0, hev2⟩ | ⟨hr, hex, c, hc, hev2⟩
    · simp at heq
    · injection heq with hp hdn hfl
      subst hp
      refine walk_mem_cases.2 (Or.inr (Or.inr (Or.inr (Or.inl
        ⟨hr, hx, f, ?_, ?_⟩))))
      · rw [← hfl]; exact hf
      · refine fileEvs_candidate.2 ⟨rfl, rfl, hsuf, ?_⟩
        rw [← hdn, ← hfl]
        exact hcond
    · simp at heq
    · have hk := (fileEvs_kind_path _ _ _ _ hev2).1
      simp [isFileEv] at hk
    · exact walk_mem_cases.2 (Or.inr (Or.inr (Or.inr (Or.inr ⟨hr, hex, c, hc,
        ih c hc (q ++ [c.name]) p dn fl f hev2 hx hf hsuf hcond⟩))))

theorem path_not_trash {ev : Ev} (h : (evPath ev).isSome = true) :
    isTrashEv ev = false := by
  cases ev <;> simp_all [evPath, isTrashEv]

theorem path_not_summary {ev : Ev} (h : (evPath ev).isSome = true) :
    isSummaryEv ev = false := by
  cases ev <;> simp_all [evPath, isSummaryEv]

theorem scan_path (env : Env) (svols : List Volume) :
    ∀ ev ∈ scanPhaseEvs env svols, (evPath ev).isSome = true := by
  intro ev hev
  unfold scanPhaseEvs at hev
  rw [List.mem_flatten] at hev
  obtain ⟨l, hl, hev2⟩ := hev
  rw [List.mem_map] at hl
  obtain ⟨v, hv, rfl⟩ := hl
  obtain ⟨p, hp, _⟩ := walk_path v.tree [v.mountpoint] ev hev2
  rw [hp]
  rfl

theorem scan_no_trash (env : Env) (svols : List Volume) :
    trashEvsOf (scanPhaseEvs env svols) = [] := by
  unfold trashEvsOf
  rw [List.filter_eq_nil_iff]
  intro ev hev
  simp [path_not_trash (scan_path env svols ev hev)]

theorem scan_no_summary (env : Env) (svols : List Volume) :
    hasSummaryB (scanPhaseEvs env svols) = false := by
  unfold hasSummaryB
  rw [List.any_eq_false]
  intro ev hev
  simp [path_not_summary (scan_path env svols ev hev)]

theorem evEffect_id {s : String → Bool} {ev : Ev} (h : isTrashEv ev = false) :
    evEffect s ev = s := by
  cases ev <;> simp_all [isTrashEv, evEffect]

theorem applyEvs_id : ∀ (evs : List Ev) (s : String → Bool),
    (∀ ev ∈ evs, isTrashEv ev = false) → applyEvs s evs = s := by
  intro evs
  induction evs with
  | nil => intro s _; rfl
  | cons ev rest ih =>
    intro s h
    have h1 : evEffect s ev = s := evEffect_id (h ev (List.mem_cons_self ev rest))
    calc applyEvs s (ev :: rest) = applyEvs (evEffect s ev) rest := rfl
    _ = applyEvs s rest := by rw [h1]
    _ = s := ih s fun e he => h e (List.mem_cons_of_mem _ he)

theorem trashCount_append (a b : List Ev) :
    trashCount (a ++ b) = trashCount a + trashCount b := by
  simp [trashCount, trashEvsOf, List.filter_append]

theorem length_filter_not {α : Type} (l : List α) (p : α → Bool) :
    (l.filter p).length + (l.filter fun a => !p a).length = l.length := by
  induction l with
  | nil => rfl
  | cons x xs ih =>
    by_cases hx : p x = true
    · simp [List.filter_cons, hx]
      omega
    · have hx2 : p x = false := by
        cases hpx : p x
        · rfl
        · exact absurd hpx hx
      simp [List.filter_cons, hx2]
      omega

theorem batch_trashEvs (trashOk : String → Bool) (cands : List String) :
    trashEvsOf (batchEvs trashOk cands) =
      cands.map fun p => Ev.trash p (trashOk p) := by
  unfold batchEvs trashEvsOf
  rw [List.filter_append]
  have h1 : (cands.map fun p => Ev.trash p (trashOk p)).filter isTrashEv =
      cands.map fun p => Ev.trash p (trashOk p) := by
    rw [List.filter_eq_self]
    intro ev hev
    rw [List.mem_map] at hev
    obtain ⟨p, _, rfl⟩ := hev
    rfl
  rw [h1]
  simp [isTrashEv]

theorem batch_summary (trashOk : String → Bool) (cands : List String) :
    Ev.summary (cands.filter fun p => trashOk p).length
      (cands.filter fun p => !trashOk p).length ∈ batchEvs trashOk cands := by
  unfold batchEvs
  exact List.mem_append_right _ (List.mem_singleton.2 rfl)

theorem batch_hasSummary (trashOk : String → Bool) (cands : List String) :
    hasSummaryB (batchEvs trashOk cands) = true := by
  unfold hasSummaryB
  rw [List.any_eq_true]
  exact ⟨_, batch_summary trashOk cands, rfl⟩

theorem runEvents_none (env : Env) (confirm : Bool) (pr : PromptResult)
    (trashOk : String → Bool) :
    runEvents env none confirm pr trashOk = [Ev.enumFailed] := rfl

theorem runEvents_noDrives (env : Env) (parts : List Volume) (confirm : Bool)
    (pr : PromptResult) (trashOk : String → Bool)
    (h : (searchVols parts).isEmpty = true) :
    runEvents env (some parts) confirm pr trashOk = [Ev.noDrives] := by
  simp [runEvents, h]

theorem runEvents_noCands (env : Env) (parts : List Volume) (confirm : Bool)
    (pr : PromptResult) (trashOk : String → Bool)
    (h1 : (searchVols parts).isEmpty = false)
    (h2 : candidatesOf (scanPhaseEvs env (searchVols parts)) = []) :
    runEvents env (some parts) confirm pr trashOk =
      scanPhaseEvs env (searchVols parts) ++ [Ev.noCandidates] := by
  simp [runEvents, h1, h2]

theorem runEvents_listed (env : Env) (parts : List Volume) (confirm : Bool)
    (pr : PromptResult) (trashOk : String → Bool)
    (h1 : (searchVols parts).isEmpty = false)
    (h2 : candidatesOf (scanPhaseEvs env (searchVols parts)) ≠ []) :
    runEvents env (some parts) confirm pr trashOk =
      scanPhaseEvs env (searchVols parts) ++
        Ev.listShown (candidatesOf (scanPhaseEvs env (searchVols parts))) ::
          (if confirm then
            match pr with
            | PromptResult.answer a =>
              if pyLower (pyStrip a) = "y"
                then batchEvs trashOk
                  (candidatesOf (scanPhaseEvs env (searchVols parts)))
                else [Ev.cancelled]
            | PromptResult.interrupted => [Ev.promptInterrupted]
            | PromptResult.eof => [Ev.promptEof]
          else Ev.autoMode ::
            batchEvs trashOk
              (candidatesOf (scanPhaseEvs env (searchVols parts)))) := by
  simp only [runEvents]
  rw [if_neg (by simp [h1]), if_neg h2]

/-- When the operator does not give the exact affirmative answer (or
interrupts, or closes the input), the interactive run never reaches the
batch: everything after the scan is plain reporting. -/
theorem runEvents_stop (env : Env) (parts : List Volume) (pr : PromptResult)
    (trashOk : String → Bool)
    (h1 : (searchVols parts).isEmpty = false)
    (h2 : candidatesOf (scanPhaseEvs env (searchVols parts)) ≠ [])
    (hpr : ∀ a, pr = PromptResult.answer a → ¬ pyLower (pyStrip a) = "y") :
    ∃ tail : List Ev, (∀ ev ∈ tail, isTrashEv ev = false ∧ isSummaryEv ev = false) ∧
      runEvents env (some parts) true pr trashOk =
        scanPhaseEvs env (searchVols parts) ++ tail := by
  cases pr with
  | answer a =>
    have hy := hpr a rfl
    refine ⟨[Ev.listShown (candidatesOf (scanPhaseEvs env (searchVols parts))),
      Ev.cancelled], ?_, ?_⟩
    · intro ev hev
      rcases List.mem_cons.1 hev with rfl | hev
      · exact ⟨rfl, rfl⟩
      · rcases List.mem_singleton.1 hev with rfl
        exact ⟨rfl, rfl⟩
    · rw [runEvents_listed env parts true (PromptResult.answer a) trashOk h1 h2]
      simp [hy]
  | interrupted =>
    refine ⟨[Ev.listShown (candidatesOf (scanPhaseEvs env (searchVols parts))),
      Ev.promptInterrupted], ?_, ?_⟩
    · intro ev hev
      rcases List.mem_cons.1 hev with rfl | hev
      · exact ⟨rfl, rfl⟩
      · rcases List.mem_singleton.1 hev with rfl
        exact ⟨rfl, rfl⟩
    · rw [runEvents_listed env parts true PromptResult.interrupted trashOk h1 h2]
      simp
  | eof =>
    refine ⟨[Ev.listShown (candidatesOf (scanPhaseEvs env (searchVols parts))),
      Ev.promptEof], ?_, ?_⟩
    · intro ev hev
      rcases List.mem_cons.1 hev with rfl | hev
      · exact ⟨rfl, rfl⟩
      · rcases List.mem_singleton.1 hev with rfl
        exact ⟨rfl, rfl⟩
    · rw [runEvents_listed env parts true PromptResult.eof trashOk h1 h2]
      simp

/-- When deletion proceeds (non-interactive, or affirmative answer),
the run is a mutation-free prefix followed by the batch. -/
theorem runEvents_proceed (env : Env) (parts : List Volume) (confirm : Bool)
    (pr : PromptResult) (trashOk : String → Bool)
    (h1 : (searchVols parts).isEmpty = false)
    (h2 : candidatesOf (scanPhaseEvs env (searchVols parts)) ≠ [])
    (hp : confirm = false ∨
      ∃ a, pr = PromptResult.answer a ∧ pyLower (pyStrip a) = "y") :
    ∃ pre : List Ev, (∀ ev ∈ pre, isTrashEv ev = false ∧ isSummaryEv ev = false) ∧
      runEvents env (some parts) confirm pr trashOk =
        pre ++ batchEvs trashOk (candidatesOf (scanPhaseEvs env (searchVols parts))) := by
  cases confirm with
  | false =>
    refine ⟨scanPhaseEvs env (searchVols parts) ++
      [Ev.listShown (candidatesOf (scanPhaseEvs env (searchVols parts))),
        Ev.autoMode], ?_, ?_⟩
    · intro ev hev
      rcases List.mem_append.1 hev with hev | hev
      · have hsome := scan_path env (searchVols parts) ev hev
        exact ⟨path_not_trash hsome, path_not_summary hsome⟩
      · rcases List.mem_cons.1 hev with rfl | hev
        · exact ⟨rfl, rfl⟩
        · rcases List.mem_singleton.1 hev with rfl
          exact ⟨rfl, rfl⟩
    · rw [runEvents_listed env parts false pr trashOk h1 h2]
      simp
  | true =>
    rcases hp with hfalse | ⟨a, rfl, hy⟩
    · simp at hfalse
    · refine ⟨scanPhaseEvs env (searchVols parts) ++
        [Ev.listShown (candidatesOf (scanPhaseEvs env (searchVols parts)))], ?_, ?_⟩
      · intro ev hev
        rcases List.mem_append.1 hev with hev | hev
        · have hsome := scan_path env (searchVols parts) ev hev
          exact ⟨path_not_trash hsome, path_not_summary hsome⟩
        · rcases List.mem_singleton.1 hev with rfl
          exact ⟨rfl, rfl⟩
      · rw [runEvents_listed env parts true (PromptResult.answer a) trashOk h1 h2]
        simp [hy]

/-- The stem of a backup name as the claim words it: the file name with
the four-character backup suffix stripped. -/
def specStem (f : String) : String := String.mk (f.data.take (f.data.length - 4))

/-- Claim C1 exactly as stated: for every file visited during traversal
whose name ends with `.bak`, a candidate is recorded iff the same-stem
`.dwg` file exists in the same directory; analogously `.skb`/`.skp`. -/
def specC1 : Prop := ∀ (excl : List String) (root : String) (t : FSTree)
    (q dn fl : List String) (f : String),
  Ev.visit q dn fl ∈ walkEvs excl [root] t →
  Ev.examine q f ∈ walkEvs excl [root] t →
  f ∈ fl →
  (pyEndswith f ".bak" = true →
    (Ev.candidate q f ∈ walkEvs excl [root] t ↔ (specStem f ++ ".dwg") ∈ fl)) ∧
  (pyEndswith f ".skb" = true →
    (Ev.candidate q f ∈ walkEvs excl [root] t ↔ (specStem f ++ ".skp") ∈ fl))

/-- Claim C3 exactly as stated: a visited directory is skipped by the
exclusion test iff its normalized path is equal to or nested under some
exclusion path. -/
def specC3 : Prop := ∀ (excl : List String) (root : String) (t : FSTree)
    (q dn fl : List String),
  Ev.visit q dn fl ∈ walkEvs excl [root] t →
    (Ev.pruned q ∈ walkEvs excl [root] t ↔ underAnyB excl (pathStr q) = true)

/-- Claim C6 exactly as stated: the success/failure counts are always
reported at the end of a run. -/
def specC6 : Prop := ∀ (env : Env) (parts : Option (List Volume)) (confirm : Bool)
    (pr : PromptResult) (trashOk : String → Bool),
  hasSummaryB (runEvents env parts confirm pr trashOk) = true

/-- Test directory holding a matched backup pair. -/
def tPair : FSTree := FSTree.mk "" true [] ["a.bak", "a.dwg"]

/-- Test directory holding a file named exactly `.bak` with a sibling
`.dwg`. -/
def tDotPair : FSTree := FSTree.mk "" true [] [".bak", ".dwg"]

/-- Test tree with a sub-directory `bc` whose path extends the string
of the exclusion path `b` without being nested under it. -/
def tSibling : FSTree := FSTree.mk "" true [FSTree.mk "bc" true [] ["x.bak", "x.dwg"]] []

/-- Test tree with an excluded sub-directory holding a matched pair and
a deeper sub-directory. -/
def tExcl : FSTree :=
  FSTree.mk "" true [FSTree.mk "skip" true [FSTree.mk "sub" true [] []] ["x.bak", "x.dwg"]] []

/-- Test unreadable directory holding a matched pair. -/
def tBadChild : FSTree := FSTree.mk "bad" false [] ["u.bak", "u.dwg"]

/-- Test readable directory holding a matched pair. -/
def tGoodChild : FSTree := FSTree.mk "good" true [] ["g.bak", "g.dwg"]

/-- Test tree with an unreadable and a readable sub-directory. -/
def tMixed : FSTree := FSTree.mk "" true [tBadChild, tGoodChild] []

/-- A plain non-Windows environment with no existing exclusion
candidates. -/
def envPlain : Env where
  appData := "/h/AppData"
  isWindowsNT := false
  programFiles := none
  programFilesX86 := none
  windir := none
  isdir := fun _ => false
  normAbs := fun s => s

/-- An environment whose only directory is `/ok`. -/
def envOk : Env where
  appData := "/h/AppData"
  isWindowsNT := false
  programFiles := none
  programFilesX86 := none
  windir := none
  isdir := fun s => s == "/ok"
  normAbs := fun s => s

/-- A read-write volume holding the matched pair. -/
def volPair : Volume := ⟨"/v", true, true, tPair⟩

/-- A read-write volume holding nothing. -/
def volEmpty : Volume := ⟨"/v", true, true, FSTree.mk "" true [] []⟩

/-- A read-write volume with an unreadable and a readable sub-directory. -/
def volMixed : Volume := ⟨"/v", true, true, tMixed⟩

/-- C1, counterexample: the claim as stated fails on the code.  A file
named exactly `.bak` ends with `.bak` and has a same-stem sibling
`.dwg` (the stem is empty), yet `os.path.splitext` assigns it an empty
extension, so the script records no candidate for it. -/
theorem claim1_counterexample : ¬ specC1 := by
  intro h
  have h1 := (h [] "/v" tDotPair ["/v"] [] [".bak", ".dwg"] ".bak"
    (by decide) (by decide) (by decide)).1 (by decide)
  have h2 := h1.2 (by decide)
  exact absurd h2 (by decide)

/-- C1, amended: for every file of a visited, non-excluded directory
whose `os.path.splitext` extension is `.bak`, a candidate is recorded
iff a directory entry (file or sub-directory, as `os.path.exists`
accepts both) named stem plus `.dwg` is listed in the same directory;
analogously `.skb`/`.skp`. -/
theorem claim1_pairing_amended (excl : List String) (root : String) (t : FSTree)
    (q dn fl : List String) (f : String)
    (hwf : wfTree t = true)
    (hv : Ev.visit q dn fl ∈ walkEvs excl [root] t)
    (hf : f ∈ fl)
    (hx : startswithAny excl (pathStr q) = false) :
    ((pySplitext f).2 = ".bak" →
      (Ev.candidate q f ∈ walkEvs excl [root] t ↔
        (fl ++ dn).contains ((pySplitext f).1 ++ ".dwg") = true)) ∧
    ((pySplitext f).2 = ".skb" →
      (Ev.candidate q f ∈ walkEvs excl [root] t ↔
        (fl ++ dn).contains ((pySplitext f).1 ++ ".skp") = true)) := by
  constructor
  · intro hbak
    constructor
    · intro hcand
      obtain ⟨dn2, fl2, hvis2, hx2, hf2, hsuf2, hcond2⟩ :=
        walk_candidate_src t [root] q f hcand
      obtain ⟨hdn, hfl⟩ := walk_visit_unique t [root] hwf q dn fl dn2 fl2 hv hvis2
      rcases hcond2 with ⟨_, hc⟩ | ⟨hskb, _⟩
      · rw [hdn, hfl]
        exact hc
      · rw [hbak] at hskb
        exact absurd hskb (by decide)
    · intro hcont
      apply walk_candidate_complete t [root] q dn fl f hv hx hf
      · have hsuf := endswith_of_ext (by decide) hbak
        unfold bakSkbSuffix
        rw [hsuf]
        rfl
      · exact Or.inl ⟨hbak, hcont⟩
  · intro hskb
    constructor
    · intro hcand
      obtain ⟨dn2, fl2, hvis2, hx2, hf2, hsuf2, hcond2⟩ :=
        walk_candidate_src t [root] q f hcand
      obtain ⟨hdn, hfl⟩ := walk_visit_unique t [root] hwf q dn fl dn2 fl2 hv hvis2
      rcases hcond2 with ⟨hbak2, _⟩ | ⟨_, hc⟩
      · rw [hskb] at hbak2
        exact absurd hbak2 (by decide)
      · rw [hdn, hfl]
        exact hc
    · intro hcont
      apply walk_candidate_complete t [root] q dn fl f hv hx hf
      · have hsuf := endswith_of_ext (by decide) hskb
        unfold bakSkbSuffix
        rw [hsuf]
        simp
      · exact Or.inr ⟨hskb, hcont⟩

/-- C1, witness: the amended pairing rule evaluated on a concrete
matched pair. -/
theorem claim1_pairing_witness :
    wfTree tPair = true ∧
    Ev.visit ["/v"] [] ["a.bak", "a.dwg"] ∈ walkEvs [] ["/v"] tPair ∧
    "a.bak" ∈ ["a.bak", "a.dwg"] ∧
    startswithAny [] (pathStr ["/v"]) = false ∧
    ((pySplitext "a.bak").2 = ".bak" →
      (Ev.candidate ["/v"] "a.bak" ∈ walkEvs [] ["/v"] tPair ↔
        ((["a.bak", "a.dwg"] ++ ([] : List String)).contains
          ((pySplitext "a.bak").1 ++ ".dwg") = true))) :=
  ⟨by decide, by decide, by decide, by decide,
    (claim1_pairing_amended [] "/v" tPair ["/v"] [] ["a.bak", "a.dwg"] "a.bak"
      (by decide) (by decide) (by decide) (by decide)).1⟩

/-- C2: for every directory at a nonempty component path whose string
lies equal to or nested under an exclusion member, the walk of a
well-formed tree never examines a file there and never enumerates
(successfully or not) any of its sub-directories: exclusion prunes the
walk. -/
theorem claim2_exclusion_prunes (excl : List String) (root : String) (t : FSTree)
    (e : String) (q : List String) (c f : String) (dn fl : List String)
    (hwf : wfTree t = true) (he : e ∈ excl)
    (hq : underB e (pathStr q) = true) (hne : q ≠ []) :
    Ev.examine q f ∉ walkEvs excl [root] t ∧
    Ev.visit (q ++ [c]) dn fl ∉ walkEvs excl [root] t ∧
    Ev.walkError (q ++ [c]) ∉ walkEvs excl [root] t := by
  have hsw : pyStartswith (pathStr q) e = true := startswith_of_under hq
  refine ⟨?_, ?_, ?_⟩
  · intro hev
    have hx := walk_examine t [root] q f hev
    have hfalse := startswithAny_false hx e he
    rw [hsw] at hfalse
    simp at hfalse
  · intro hev
    rcases walk_dir_safe t [root] hwf (by simp) _ (q ++ [c]) hev rfl rfl with
      hcase | hcase
    · have hq0 : q.length = 0 := by
        have hlen := congrArg List.length hcase
        rw [List.length_append] at hlen
        simp only [List.length_singleton, List.length_cons, List.length_nil] at hlen
        omega
      exact hne (List.eq_nil_of_length_eq_zero hq0)
    · have hstrict := strictlyUnder_extend c hq
      rw [← pathStr_snoc q c hne] at hstrict
      rw [hcase e he] at hstrict
      simp at hstrict
  · intro hev
    rcases walk_dir_safe t [root] hwf (by simp) _ (q ++ [c]) hev rfl rfl with
      hcase | hcase
    · have hq0 : q.length = 0 := by
        have hlen := congrArg List.length hcase
        rw [List.length_append] at hlen
        simp only [List.length_singleton, List.length_cons, List.length_nil] at hlen
        omega
      exact hne (List.eq_nil_of_length_eq_zero hq0)
    · have hstrict := strictlyUnder_extend c hq
      rw [← pathStr_snoc q c hne] at hstrict
      rw [hcase e he] at hstrict
      simp at hstrict

/-- C2, witness: the pruning property evaluated at a concrete excluded
directory holding a matched pair and a sub-directory. -/
theorem claim2_exclusion_prunes_witness :
    wfTree tExcl = true ∧
    "/v/skip" ∈ ["/v/skip"] ∧
    underB "/v/skip" (pathStr ["/v", "skip"]) = true ∧
    (Ev.examine ["/v", "skip"] "x.bak" ∉ walkEvs ["/v/skip"] ["/v"] tExcl ∧
      Ev.visit (["/v", "skip"] ++ ["sub"]) [] [] ∉ walkEvs ["/v/skip"] ["/v"] tExcl ∧
      Ev.walkError (["/v", "skip"] ++ ["sub"]) ∉ walkEvs ["/v/skip"] ["/v"] tExcl) :=
  ⟨by decide, by decide, by decide,
    claim2_exclusion_prunes ["/v/skip"] "/v" tExcl "/v/skip" ["/v", "skip"]
      "sub" "x.bak" [] [] (by decide) (by decide) (by decide) (by decide)⟩

/-- C3, counterexample: the claim as stated fails on the code.  With
exclusion path `/a/b`, the directory `/a/bc` is skipped by the
`startswith` test although it is neither equal to nor nested under
`/a/b`, so a directory that is not a descendant of any exclusion path
is not always scanned. -/
theorem claim3_counterexample : ¬ specC3 := by
  intro h
  have h1 := h ["/a/b"] "/a" tSibling ["/a", "bc"] [] ["x.bak", "x.dwg"] (by decide)
  have h2 := h1.1 (by decide)
  exact absurd h2 (by decide)

/-- C3, amended: a visited directory is skipped iff its normalized
absolute path string has some exclusion path as a plain string-initial
segment — which covers every directory equal to or nested under an
exclusion path, but also siblings whose name merely extends an
exclusion path's final component. -/
theorem claim3_prune_iff_startswith (excl : List String) (root : String)
    (t : FSTree) (q dn fl : List String)
    (hv : Ev.visit q dn fl ∈ walkEvs excl [root] t) :
    Ev.pruned q ∈ walkEvs excl [root] t ↔
      startswithAny excl (pathStr q) = true :=
  ⟨walk_pruned t [root] q, walk_visit_pruned t [root] q dn fl hv⟩

/-- C3, witness: the amended skip rule evaluated at the concrete
sibling directory `/a/bc` with exclusion `/a/b`. -/
theorem claim3_prune_iff_startswith_witness :
    Ev.visit ["/a", "bc"] [] ["x.bak", "x.dwg"] ∈ walkEvs ["/a/b"] ["/a"] tSibling ∧
    (Ev.pruned ["/a", "bc"] ∈ walkEvs ["/a/b"] ["/a"] tSibling ↔
      startswithAny ["/a/b"] (pathStr ["/a", "bc"]) = true) :=
  ⟨by decide,
    claim3_prune_iff_startswith ["/a/b"] "/a" tSibling ["/a", "bc"] []
      ["x.bak", "x.dwg"] (by decide)⟩

theorem nonempty_vols_of_cands {env : Env} {parts : List Volume}
    (h : candidatesOf (scanPhaseEvs env (searchVols parts)) ≠ []) :
    (searchVols parts).isEmpty = false := by
  cases hx : (searchVols parts).isEmpty
  · rfl
  · exfalso
    apply h
    have hnil : searchVols parts = [] := List.isEmpty_iff.1 hx
    rw [hnil]
    rfl

/-- C4: in interactive mode the batch proceeds only when the stripped,
lowercased response is exactly `y`; any other answer, a keyboard
interrupt or an end-of-file at the prompt yields exactly zero
`send2trash` invocations and leaves the filesystem state unchanged. -/
theorem claim4_confirm_gate (env : Env) (parts : Option (List Volume))
    (pr : PromptResult) (trashOk : String → Bool) (s : String → Bool) :
    ((∀ a, pr = PromptResult.answer a → ¬ pyLower (pyStrip a) = "y") →
      trashCount (runEvents env parts true pr trashOk) = 0 ∧
      applyEvs s (runEvents env parts true pr trashOk) = s) ∧
    (trashCount (runEvents env parts true pr trashOk) ≠ 0 →
      ∃ a, pr = PromptResult.answer a ∧ pyLower (pyStrip a) = "y") := by
  have main : (∀ a, pr = PromptResult.answer a → ¬ pyLower (pyStrip a) = "y") →
      trashCount (runEvents env parts true pr trashOk) = 0 ∧
      applyEvs s (runEvents env parts true pr trashOk) = s := by
    intro hpr
    cases parts with
    | none =>
      rw [runEvents_none]
      exact ⟨rfl, rfl⟩
    | some ps =>
      by_cases hempty : (searchVols ps).isEmpty = true
      · rw [runEvents_noDrives env ps true pr trashOk hempty]
        exact ⟨rfl, rfl⟩
      · have hemptyF : (searchVols ps).isEmpty = false := by
          cases hx : (searchVols ps).isEmpty
          · rfl
          · exact absurd hx hempty
        by_cases hcand : candidatesOf (scanPhaseEvs env (searchVols ps)) = []
        · rw [runEvents_noCands env ps true pr trashOk hemptyF hcand]
          constructor
          · rw [trashCount_append]
            have h1 : trashCount (scanPhaseEvs env (searchVols ps)) = 0 := by
              unfold trashCount
              rw [scan_no_trash]
              rfl
            rw [h1]
            rfl
          · apply applyEvs_id
            intro ev hev
            rcases List.mem_append.1 hev with hev | hev
            · exact path_not_trash (scan_path _ _ ev hev)
            · rcases List.mem_singleton.1 hev with rfl
              rfl
        · obtain ⟨tail, htail, hrun⟩ :=
            runEvents_stop env ps pr trashOk hemptyF hcand hpr
          rw [hrun]
          constructor
          · rw [trashCount_append]
            have h1 : trashCount (scanPhaseEvs env (searchVols ps)) = 0 := by
              unfold trashCount
              rw [scan_no_trash]
              rfl
            have h2 : trashCount tail = 0 := by
              unfold trashCount trashEvsOf
              rw [List.filter_eq_nil_iff.2 fun ev hev => by
                simp [(htail ev hev).1]]
              rfl
            rw [h1, h2]
          · apply applyEvs_id
            intro ev hev
            rcases List.mem_append.1 hev with hev | hev
            · exact path_not_trash (scan_path _ _ ev hev)
            · exact (htail ev hev).1
  refine ⟨main, ?_⟩
  intro hne
  by_contra hno
  push_neg at hno
  exact hne (main hno).1

/-- C4, witness: a keyboard interrupt at the prompt of a run over a
volume holding one matched pair moves nothing. -/
theorem claim4_confirm_gate_witness :
    (∀ a, PromptResult.interrupted = PromptResult.answer a →
      ¬ pyLower (pyStrip a) = "y") ∧
    (trashCount (runEvents envPlain (some [volPair]) true
        PromptResult.interrupted (fun _ => true)) = 0 ∧
      applyEvs (fun _ => true) (runEvents envPlain (some [volPair]) true
        PromptResult.interrupted (fun _ => true)) = (fun _ => true)) :=
  ⟨(fun _ h => nomatch h),
    (claim4_confirm_gate envPlain (some [volPair]) PromptResult.interrupted
      (fun _ => true) (fun _ => true)).1 (fun _ h => nomatch h)⟩

/-- C5: when deletion proceeds (non-interactive mode, or interactive
with the affirmative answer) over the discovered candidate list, the
trash events of the run are exactly one per candidate in list order,
the summary of counts is reported, and the success and failure counts
sum to the number of candidates. -/
theorem claim5_batch_attempts (env : Env) (parts : List Volume) (confirm : Bool)
    (pr : PromptResult) (trashOk : String → Bool)
    (hcand : candidatesOf (scanPhaseEvs env (searchVols parts)) ≠ [])
    (hp : confirm = false ∨
      ∃ a, pr = PromptResult.answer a ∧ pyLower (pyStrip a) = "y") :
    trashEvsOf (runEvents env (some parts) confirm pr trashOk) =
      (candidatesOf (scanPhaseEvs env (searchVols parts))).map
        (fun p => Ev.trash p (trashOk p)) ∧
    Ev.summary
        ((candidatesOf (scanPhaseEvs env (searchVols parts))).filter
          fun p => trashOk p).length
        ((candidatesOf (scanPhaseEvs env (searchVols parts))).filter
          fun p => !trashOk p).length ∈
      runEvents env (some parts) confirm pr trashOk ∧
    ((candidatesOf (scanPhaseEvs env (searchVols parts))).filter
        fun p => trashOk p).length +
      ((candidatesOf (scanPhaseEvs env (searchVols parts))).filter
        fun p => !trashOk p).length =
      (candidatesOf (scanPhaseEvs env (searchVols parts))).length := by
  have hemptyF := nonempty_vols_of_cands hcand
  obtain ⟨pre, hpre, hrun⟩ :=
    runEvents_proceed env parts confirm pr trashOk hemptyF hcand hp
  rw [hrun]
  refine ⟨?_, ?_, length_filter_not _ _⟩
  · unfold trashEvsOf
    rw [List.filter_append]
    have h1 : pre.filter isTrashEv = [] :=
      List.filter_eq_nil_iff.2 fun ev hev => by simp [(hpre ev hev).1]
    have h2 := batch_trashEvs trashOk
      (candidatesOf (scanPhaseEvs env (searchVols parts)))
    unfold trashEvsOf at h2
    rw [h1, h2]
    rfl
  · exact List.mem_append_right _ (batch_summary _ _)

/-- C5, witness: the non-interactive run over a volume holding one
matched pair makes exactly one trash attempt and reports counts
summing to one. -/
theorem claim5_batch_attempts_witness :
    candidatesOf (scanPhaseEvs envPlain (searchVols [volPair])) ≠ [] ∧
    (trashEvsOf (runEvents envPlain (some [volPair]) false PromptResult.eof
        (fun _ => true)) =
      (candidatesOf (scanPhaseEvs envPlain (searchVols [volPair]))).map
        (fun p => Ev.trash p true) ∧
    Ev.summary
        ((candidatesOf (scanPhaseEvs envPlain (searchVols [volPair]))).filter
          fun _ => true).length
        ((candidatesOf (scanPhaseEvs envPlain (searchVols [volPair]))).filter
          fun _ => !true).length ∈
      runEvents envPlain (some [volPair]) false PromptResult.eof (fun _ => true) ∧
    ((candidatesOf (scanPhaseEvs envPlain (searchVols [volPair]))).filter
        fun _ => true).length +
      ((candidatesOf (scanPhaseEvs envPlain (searchVols [volPair]))).filter
        fun _ => !true).length =
      (candidatesOf (scanPhaseEvs envPlain (searchVols [volPair]))).length) :=
  ⟨by decide, claim5_batch_attempts envPlain [volPair] false PromptResult.eof
    (fun _ => true) (by decide) (Or.inl rfl)⟩

/-- C6, counterexample: the claim as stated fails on the code.  When
volume enumeration fails, the run aborts after the error message: no
success/failure counts (and no candidate report) are emitted, so the
final counts are not always reported. -/
theorem claim6_counterexample : ¬ specC6 := by
  intro h
  have h1 := h envPlain none true PromptResult.interrupted (fun _ => true)
  exact absurd h1 (by decide)

/-- C6, amended: enumeration failure aborts the run with only the
failure report and zero trash attempts, and the success/failure counts
are reported iff the deletion batch actually runs, i.e. iff candidates
were found and the run is non-interactive or received the affirmative
answer; a zero-candidate run reports a no-candidate message instead of
counts. -/
theorem claim6_summary_iff_batch (env : Env) (parts : List Volume)
    (confirm : Bool) (pr : PromptResult) (trashOk : String → Bool) :
    runEvents env none confirm pr trashOk = [Ev.enumFailed] ∧
    trashCount (runEvents env none confirm pr trashOk) = 0 ∧
    (candidatesOf (scanPhaseEvs env (searchVols parts)) = [] →
      (searchVols parts).isEmpty = false →
      runEvents env (some parts) confirm pr trashOk =
        scanPhaseEvs env (searchVols parts) ++ [Ev.noCandidates]) ∧
    (hasSummaryB (runEvents env (some parts) confirm pr trashOk) = true ↔
      (candidatesOf (scanPhaseEvs env (searchVols parts)) ≠ [] ∧
        (confirm = false ∨
          ∃ a, pr = PromptResult.answer a ∧ pyLower (pyStrip a) = "y"))) := by
  refine ⟨rfl, rfl, ?_, ?_⟩
  · intro hcand hemptyF
    exact runEvents_noCands env parts confirm pr trashOk hemptyF hcand
  constructor
  · intro hsum
    by_cases hempty : (searchVols parts).isEmpty = true
    · rw [runEvents_noDrives env parts confirm pr trashOk hempty] at hsum
      exact absurd hsum (by decide)
    · have hemptyF : (searchVols parts).isEmpty = false := by
        cases hx : (searchVols parts).isEmpty
        · rfl
        · exact absurd hx hempty
      by_cases hcand : candidatesOf (scanPhaseEvs env (searchVols parts)) = []
      · rw [runEvents_noCands env parts confirm pr trashOk hemptyF hcand] at hsum
        have h1 := scan_no_summary env (searchVols parts)
        unfold hasSummaryB at hsum h1
        rw [List.any_append, h1] at hsum
        simp [isSummaryEv] at hsum
      · refine ⟨hcand, ?_⟩
        by_contra hno
        push_neg at hno
        obtain ⟨hc1, hc2⟩ := hno
        have hct : confirm = true := by
          cases confirm
          · exact absurd rfl hc1
          · rfl
        subst hct
        obtain ⟨tail, htail, hrun⟩ :=
          runEvents_stop env parts pr trashOk hemptyF hcand hc2
        rw [hrun] at hsum
        have h1 := scan_no_summary env (searchVols parts)
        unfold hasSummaryB at hsum h1
        rw [List.any_append, h1] at hsum
        have h2 : tail.any isSummaryEv = false := by
          rw [List.any_eq_false]
          intro ev hev
          simp [(htail ev hev).2]
        rw [h2] at hsum
        simp at hsum
  · rintro ⟨hcand, hp⟩
    have hemptyF := nonempty_vols_of_cands hcand
    obtain ⟨pre, hpre, hrun⟩ :=
      runEvents_proceed env parts confirm pr trashOk hemptyF hcand hp
    rw [hrun]
    have h1 := batch_hasSummary trashOk
      (candidatesOf (scanPhaseEvs env (searchVols parts)))
    unfold hasSummaryB at h1 ⊢
    rw [List.any_append, h1]
    simp

/-- C6, witness: the amended reporting rule evaluated on a run over an
empty volume, which finds zero candidates and reports the no-candidate
message without counts. -/
theorem claim6_summary_iff_batch_witness :
    (candidatesOf (scanPhaseEvs envPlain (searchVols [volEmpty])) = [] ∧
      (searchVols [volEmpty]).isEmpty = false) ∧
    runEvents envPlain (some [volEmpty]) true PromptResult.eof (fun _ => true) =
      scanPhaseEvs envPlain (searchVols [volEmpty]) ++ [Ev.noCandidates] ∧
    (hasSummaryB (runEvents envPlain (some [volEmpty]) true PromptResult.eof
        (fun _ => true)) = true ↔
      (candidatesOf (scanPhaseEvs envPlain (searchVols [volEmpty])) ≠ [] ∧
        (true = false ∨ ∃ a, PromptResult.eof = PromptResult.answer a ∧
          pyLower (pyStrip a) = "y"))) :=
  ⟨⟨by decide, by decide⟩,
    (claim6_summary_iff_batch envPlain [volEmpty] true PromptResult.eof
      (fun _ => true)).2.2.1 (by decide) (by decide),
    (claim6_summary_iff_batch envPlain [volEmpty] true PromptResult.eof
      (fun _ => true)).2.2.2⟩

theorem buildExcludeDirs_eq (env : Env) : ∀ defs : List String,
    buildExcludeDirs env defs =
      (defs.filter fun p => (p != "") && env.isdir p).map env.normAbs := by
  intro defs
  induction defs with
  | nil => rfl
  | cons p ps ih =>
    by_cases hp : p ≠ "" ∧ env.isdir p = true
    · have hb : ((p != "") && env.isdir p) = true := by
        obtain ⟨h1, h2⟩ := hp
        simp [bne_iff_ne, h1, h2]
      simp only [buildExcludeDirs] at ih ⊢
      rw [List.filterMap_cons, if_pos hp, List.filter_cons, if_pos (by simp [hb]),
        List.map_cons, ih]
    · have hb : ((p != "") && env.isdir p) = false := by
        rcases not_and_or.1 hp with h1 | h2
        · have hpe : p = "" := not_not.1 h1
          simp [hpe]
        · have hpd : env.isdir p = false := by
            cases hx : env.isdir p
            · rfl
            · exact absurd hx h2
          simp [hpd]
      simp only [buildExcludeDirs] at ih ⊢
      rw [List.filterMap_cons, if_neg hp, List.filter_cons, if_neg (by simp [hb]),
        ih]

/-- C7: every member of the exclusion list comes from a nonempty
definition that was a directory at build time, is stored in normalized
absolute form, and (assuming canonicalization preserves being a
directory) is itself a directory; definitions that are unset, empty or
not directories are dropped rather than failing, the list being exactly
the normalized images of the surviving definitions. -/
theorem claim7_exclusion_set (env : Env) (defs : List String) (e : String)
    (hn : ∀ p, env.isdir (env.normAbs p) = env.isdir p)
    (he : e ∈ buildExcludeDirs env defs) :
    (∃ p, p ∈ defs ∧ p ≠ "" ∧ env.isdir p = true ∧ e = env.normAbs p) ∧
    env.isdir e = true ∧
    buildExcludeDirs env defs =
      (defs.filter fun p => (p != "") && env.isdir p).map env.normAbs := by
  unfold buildExcludeDirs at he
  rw [List.mem_filterMap] at he
  obtain ⟨p, hp, heq⟩ := he
  have hcond : p ≠ "" ∧ env.isdir p = true := by
    by_contra hc
    rw [if_neg hc] at heq
    cases heq
  rw [if_pos hcond] at heq
  have hpe : e = env.normAbs p := (Option.some.inj heq).symm
  refine ⟨⟨p, hp, hcond.1, hcond.2, hpe⟩, ?_, buildExcludeDirs_eq env defs⟩
  rw [hpe, hn p]
  exact hcond.2

/-- C7, witness: the membership characterization evaluated on a
concrete definition list with an existing directory, an empty entry and
a missing directory. -/
theorem claim7_exclusion_set_witness :
    "/ok" ∈ buildExcludeDirs envOk ["/ok", "", "/gone"] ∧
    ((∃ p, p ∈ ["/ok", "", "/gone"] ∧ p ≠ "" ∧ envOk.isdir p = true ∧
        "/ok" = envOk.normAbs p) ∧
      envOk.isdir "/ok" = true ∧
      buildExcludeDirs envOk ["/ok", "", "/gone"] =
        (["/ok", "", "/gone"].filter fun p => (p != "") && envOk.isdir p).map
          envOk.normAbs) :=
  ⟨by decide, claim7_exclusion_set envOk ["/ok", "", "/gone"] "/ok"
    (fun _ => rfl) (by decide)⟩

/-- C8: the scan phase mutates nothing.  The run trace of any
successful enumeration starts with the scan-phase events, and replaying
the scan-phase events on any filesystem state leaves it unchanged, so
the state after the scan and before the deletion batch equals the state
before the scan. -/
theorem claim8_scan_readonly :
    (∀ (env : Env) (parts : List Volume) (confirm : Bool) (pr : PromptResult)
        (trashOk : String → Bool), ∃ rest : List Ev,
      runEvents env (some parts) confirm pr trashOk =
        scanPhaseEvs env (searchVols parts) ++ rest) ∧
    (∀ (env : Env) (svols : List Volume) (s : String → Bool),
      applyEvs s (scanPhaseEvs env svols) = s) := by
  constructor
  · intro env parts confirm pr trashOk
    by_cases hempty : (searchVols parts).isEmpty = true
    · refine ⟨[Ev.noDrives], ?_⟩
      have hnil : searchVols parts = [] := List.isEmpty_iff.1 hempty
      rw [runEvents_noDrives env parts confirm pr trashOk hempty, hnil]
      rfl
    · have hemptyF : (searchVols parts).isEmpty = false := by
        cases hx : (searchVols parts).isEmpty
        · rfl
        · exact absurd hx hempty
      by_cases hcand : candidatesOf (scanPhaseEvs env (searchVols parts)) = []
      · exact ⟨[Ev.noCandidates],
          runEvents_noCands env parts confirm pr trashOk hemptyF hcand⟩
      · exact ⟨_, runEvents_listed env parts confirm pr trashOk hemptyF hcand⟩
  · intro env svols s
    apply applyEvs_id
    intro ev hev
    exact path_not_trash (scan_path env svols ev hev)

/-- C9: a directory-read failure is recorded and only that directory is
skipped: an unreadable directory contributes exactly its error event,
every event of a sibling subtree of a readable, non-excluded parent is
in the parent's walk, and every event of one volume's walk is in the
scan phase of the whole run. -/
theorem claim9_error_resilience :
    (∀ (excl : List String) (q : List String) (t : FSTree),
      t.readable = false → walkEvs excl q t = [Ev.walkError q]) ∧
    (∀ (excl : List String) (q : List String) (n : String) (subs : List FSTree)
        (files : List String) (c : FSTree) (ev : Ev),
      c ∈ subs → startswithAny excl (pathStr q) = false →
      ev ∈ walkEvs excl (q ++ [c.name]) c →
      ev ∈ walkEvs excl q (FSTree.mk n true subs files)) ∧
    (∀ (env : Env) (svols : List Volume) (v : Volume) (ev : Ev),
      v ∈ svols →
      ev ∈ walkEvs (scanExcl env svols) [v.mountpoint] v.tree →
      ev ∈ scanPhaseEvs env svols) := by
  refine ⟨?_, ?_, ?_⟩
  · intro excl q t h
    cases t with
    | mk n r subs files =>
      have hr : r = false := h
      subst hr
      simp [walkEvs]
  · intro excl q n subs files c ev hc hx hev
    exact walk_mem_cases.2 (Or.inr (Or.inr (Or.inr (Or.inr ⟨rfl, hx, c, hc, hev⟩))))
  · intro env svols v ev hv hev
    unfold scanPhaseEvs
    rw [List.mem_flatten]
    exact ⟨_, List.mem_map_of_mem _ hv, hev⟩

/-- C9, witness: in a volume with an unreadable directory `bad` and a
readable sibling `good`, each holding a matched pair, the error is
recorded for `bad` while the candidate of `good` is still discovered,
also at the level of the whole scan phase. -/
theorem claim9_error_resilience_witness :
    tBadChild.readable = false ∧
    walkEvs [] ["/v", "bad"] tBadChild = [Ev.walkError ["/v", "bad"]] ∧
    (tGoodChild ∈ [tBadChild, tGoodChild] ∧
      startswithAny [] (pathStr ["/v"]) = false ∧
      Ev.candidate ["/v", "good"] "g.bak" ∈
        walkEvs [] (["/v"] ++ [tGoodChild.name]) tGoodChild ∧
      Ev.candidate ["/v", "good"] "g.bak" ∈
        walkEvs [] ["/v"] (FSTree.mk "" true [tBadChild, tGoodChild] [])) ∧
    (volMixed ∈ [volMixed] ∧
      Ev.candidate ["/v", "good"] "g.bak" ∈
        walkEvs (scanExcl envPlain [volMixed]) ["/v"] volMixed.tree ∧
      Ev.candidate ["/v", "good"] "g.bak" ∈ scanPhaseEvs envPlain [volMixed]) :=
  ⟨rfl,
    claim9_error_resilience.1 [] ["/v", "bad"] tBadChild rfl,
    ⟨List.mem_cons_of_mem _ (List.mem_cons_self _ _), by decide, by decide,
      claim9_error_resilience.2.1 [] ["/v"] "" [tBadChild, tGoodChild] []
        tGoodChild (Ev.candidate ["/v", "good"] "g.bak")
        (List.mem_cons_of_mem _ (List.mem_cons_self _ _)) (by decide)
        (by decide)⟩,
    ⟨List.mem_cons_self _ _, by decide,
      claim9_error_resilience.2.2 envPlain [volMixed] volMixed
        (Ev.candidate ["/v", "good"] "g.bak") (List.mem_cons_self _ _)
        (by decide)⟩⟩

/-- C10: a file named exactly `.bak` or `.skb` passes the suffix
filter, but `os.path.splitext` gives it an empty extension, so the file
loop takes the unknown-extension warning branch: the branch is
reachable, and no candidate is ever produced for such a file,
regardless of sibling entries. -/
theorem claim10_bare_suffix (entries : List String) (q : List String)
    (excl : List String) (root : String) (t : FSTree) :
    bakSkbSuffix ".bak" = true ∧ bakSkbSuffix ".skb" = true ∧
    (pySplitext ".bak").2 = "" ∧ (pySplitext ".skb").2 = "" ∧
    fileEvs entries q ".bak" = [Ev.examine q ".bak", Ev.unknownExt q ".bak"] ∧
    fileEvs entries q ".skb" = [Ev.examine q ".skb", Ev.unknownExt q ".skb"] ∧
    Ev.candidate q ".bak" ∉ walkEvs excl [root] t ∧
    Ev.candidate q ".skb" ∉ walkEvs excl [root] t := by
  refine ⟨by decide, by decide, by decide, by decide, rfl, rfl, ?_, ?_⟩
  · intro hc
    obtain ⟨dn, fl, _, _, _, _, hcond⟩ := walk_candidate_src t [root] q ".bak" hc
    rcases hcond with ⟨hext, _⟩ | ⟨hext, _⟩ <;> exact absurd hext (by decide)
  · intro hc
    obtain ⟨dn, fl, _, _, _, _, hcond⟩ := walk_candidate_src t [root] q ".skb" hc
    rcases hcond with ⟨hext, _⟩ | ⟨hext, _⟩ <;> exact absurd hext (by decide)

/-- C10, witness: the unknown-extension behaviour evaluated at a
concrete directory where `.bak` sits next to `.dwg`. -/
theorem claim10_bare_suffix_witness :
    fileEvs [".dwg"] ["/v"] ".bak" =
      [Ev.examine ["/v"] ".bak", Ev.unknownExt ["/v"] ".bak"] ∧
    Ev.candidate ["/v"] ".bak" ∉ walkEvs [] ["/v"] tDotPair :=
  ⟨(claim10_bare_suffix [".dwg"] ["/v"] [] "/v" tDotPair).2.2.2.2.1,
    (claim10_bare_suffix [".dwg"] ["/v"] [] "/v" tDotPair).2.2.2.2.2.2.1⟩

end BackupRemover
